import Mathlib

/-!
Verification of the eg-bdf BDF font renderer.

The development shallowly embeds the two source files:
* `lib.rs`: the glyph table (`BdfFont`, binary-search lookup `get_glyph`)
  and the bitmap blit routine (`BdfGlyph.draw`);
* `text.rs`: the text style engine (`BdfTextStyle` with `draw_string`,
  `draw_whitespace`, `measure_string`, `draw_decorations`,
  `baseline_offset`, `line_height`, `set_text_color`).

Machine integers are modelled with `Int`/`Nat` in exact arithmetic
(`i32` coordinates as `Int`, `u32`/`usize` quantities as `Nat`).
Fallible drawing targets are modelled by an explicit state-passing
interface `TargetOps`; lookups that would panic on an out-of-range
index in Rust return `none`.
-/

/-- A pixel coordinate, embedding embedded-graphics `Point` (two `i32`). -/
structure Point where
  x : Int
  y : Int
deriving DecidableEq

/-- A size in pixels, embedding embedded-graphics `Size` (two `u32`). -/
structure Size where
  width : Nat
  height : Nat
deriving DecidableEq

/-- A rectangle given by its top-left corner and size. -/
structure Rectangle where
  top_left : Point
  size : Size
deriving DecidableEq

/-- `Rectangle::translate(position)` moves the top-left corner by `p`. -/
def Rectangle.translate (r : Rectangle) (p : Point) : Rectangle :=
  ⟨⟨r.top_left.x + p.x, r.top_left.y + p.y⟩, r.size⟩

/-- The `points()` iterator of a rectangle: row-major enumeration,
rows top to bottom, within each row left to right. -/
def Rectangle.points (r : Rectangle) : List Point :=
  (List.range r.size.height).flatMap fun (dy : Nat) =>
    (List.range r.size.width).map fun (dx : Nat) =>
      ⟨r.top_left.x + (dx : Int), r.top_left.y + (dy : Int)⟩

/-- The eight bits of one byte, least-significant first, as produced per
byte by `RawDataSlice::<RawU1, LittleEndian>`. -/
def byteBits (b : Nat) : List Bool :=
  (List.range 8).map fun k => Nat.testBit b k

/-- The full bit stream of the packed data blob:
`RawDataSlice::<RawU1, LittleEndian>::new(data).into_iter()` yields the
bits of consecutive bytes, LSB first within each byte (a `RawU1` equals
`RawU1::new(1)` exactly when the bit is set, so bits are `Bool` here). -/
def rawBits (data : List Nat) : List Bool :=
  data.flatMap byteBits

/-- Bit number `n` of the blob: bit `n % 8` of byte `n / 8`. -/
def bitAt (data : List Nat) (n : Nat) : Bool :=
  Nat.testBit (data.getD (n / 8) 0) (n % 8)

/-- Glyph descriptor (`BdfGlyph` in `lib.rs`). -/
structure BdfGlyph where
  character : Char
  bounding_box : Rectangle
  device_width : Nat
  start_index : Nat
deriving DecidableEq

/-- Font value (`BdfFont` in `lib.rs`); the borrowed slices become lists. -/
structure BdfFont where
  replacement_character : Nat
  glyphs : List BdfGlyph
  data : List Nat
  pixel_size : Nat
  font_ascent : Nat
  font_descent : Nat
deriving DecidableEq

/-- `char` comparison used by the binary search: the Rust `Ord` instance
on `char` compares scalar values. -/
def ccmp (a b : Char) : Ordering :=
  compare a.toNat b.toNat

/-- The loop of core Rust `slice::binary_search_by`, which `get_glyph`
calls: window `[left, right)`, probe `mid = left + (right-left)/2`.
The Rust loop terminates because the window shrinks; here `fuel` bounds the
iteration count structurally and never runs out when `right - left ≤ fuel`
(see `bsGo_spec`). Out-of-range probes (impossible while `right ≤ xs.length`)
read the default `d`. -/
def bsGo (xs : List BdfGlyph) (d : BdfGlyph) (c : Char) :
    Nat → Nat → Nat → Except Nat Nat
  | 0, left, _ => .error left
  | fuel + 1, left, right =>
    if left < right then
      let mid := left + (right - left) / 2
      match ccmp (xs.getD mid d).character c with
      | .lt => bsGo xs d c fuel (mid + 1) right
      | .gt => bsGo xs d c fuel left mid
      | .eq => .ok mid
    else
      .error left

/-- An arbitrary glyph value used as the (never actually read) default
for in-bounds slice indexing. -/
def dfltGlyph : BdfGlyph :=
  ⟨'A', ⟨⟨0, 0⟩, ⟨0, 0⟩⟩, 0, 0⟩

/-- `self.glyphs.binary_search_by(|g| g.character.cmp(&c))`. -/
def BdfFont.binary_search (f : BdfFont) (c : Char) : Except Nat Nat :=
  bsGo f.glyphs dfltGlyph c f.glyphs.length 0 f.glyphs.length

/-- `BdfFont::get_glyph`: on a binary-search hit return that glyph, else
index with `replacement_character`; `none` models the Rust panic of an
out-of-range index. -/
def BdfFont.get_glyph (f : BdfFont) (c : Char) : Option BdfGlyph :=
  match f.binary_search c with
  | .ok found_idx => f.glyphs[found_idx]?
  | .error _ => f.glyphs[f.replacement_character]?

/-- The pixel list that `BdfGlyph::draw` submits to the target: skip
`start_index` bits (`data_iter.nth(self.start_index - 1)` when positive),
zip the points of the translated bounding box with the remaining bits; with a
background color every pair becomes a pixel, otherwise only set bits do. -/
def glyphWrites {C : Type} (g : BdfGlyph) (position : Point) (color : C)
    (bg_color : Option C) (data : List Nat) : List (Point × C) :=
  let bits := (rawBits data).drop g.start_index
  let zip := (g.bounding_box.translate position).points.zip bits
  match bg_color with
  | some bgc => zip.map fun pc => (pc.1, if pc.2 then color else bgc)
  | none => (zip.filter fun pc => pc.2).map fun pc => (pc.1, color)

/-- A drawing target: fallible batched pixel writes and solid fills,
threaded through an explicit state `S` (the Rust `&mut D`); on an error
the state keeps whatever the target already did. -/
structure TargetOps (C E S : Type) where
  drawPixel : S → Point → C → S × Option E
  fillSolid : S → Rectangle → C → S × Option E

/-- Submit a pixel sequence to the target, aborting at the first failing
write (the semantics of `impl Drawable` / `DrawTarget::draw_iter`). -/
def runPixels {C E S : Type} (ops : TargetOps C E S) :
    List (Point × C) → S → S × Option E
  | [], s => (s, none)
  | pc :: rest, s =>
    match ops.drawPixel s pc.1 pc.2 with
    | (s1, some err) => (s1, some err)
    | (s1, none) => runPixels ops rest s1

/-- `BdfGlyph::draw`: build the pixel iterator and draw it on the target. -/
def BdfGlyph.draw {C E S : Type} (g : BdfGlyph) (position : Point) (color : C)
    (bg_color : Option C) (data : List Nat) (ops : TargetOps C E S) (s : S) :
    S × Option E :=
  runPixels ops (glyphWrites g position color bg_color data) s

/-- The `Baseline` alignment variants of embedded-graphics. -/
inductive Baseline where
  | top
  | bottom
  | middle
  | alphabetic
deriving DecidableEq

/-- The three-state `DecorationColor` of embedded-graphics. -/
inductive DecorationColor (C : Type) where
  | none
  | textColor
  | custom (c : C)
deriving DecidableEq

/-- The text style (`BdfTextStyle` in `text.rs`). -/
structure BdfTextStyle (C : Type) where
  font : BdfFont
  text_color : C
  background_color : Option C
  underline_color : DecorationColor C
  strikethrough_color : DecorationColor C
  height_adjust : Int
deriving DecidableEq

/-- `line_height`: `(font_ascent as i32 + height_adjust).max(0) as u32`. -/
def BdfTextStyle.line_height {C : Type} (style : BdfTextStyle C) : Nat :=
  (max ((style.font.font_ascent : Int) + style.height_adjust) 0).toNat

/-- `baseline_offset`; the `Middle` case divides with the Rust `/`, which
truncates toward zero, hence `Int.tdiv`. -/
def BdfTextStyle.baseline_offset {C : Type} (style : BdfTextStyle C)
    (baseline : Baseline) : Int :=
  match baseline with
  | .top => -((style.line_height : Int) - 1)
  | .middle => Int.tdiv (-((style.line_height : Int) - 1)) 2
  | .alphabetic => 0
  | .bottom => (style.font.font_descent : Int)

/-- `decoration_color_to_color`. -/
def BdfTextStyle.decoration_color_to_color {C : Type} (style : BdfTextStyle C)
    (dc : DecorationColor C) : Option C :=
  match dc with
  | .textColor => some style.text_color
  | .custom custom_color => some custom_color
  | .none => Option.none

/-- The underline half of `draw_decorations` (the second `if let` block):
fill a `width × 1` rectangle at vertical offset
`baseline_offset(Alphabetic) + 1` when the underline color resolves. -/
def BdfTextStyle.drawUnderlinePart {C E S : Type} (style : BdfTextStyle C)
    (ops : TargetOps C E S) (s : S) (width : Nat) (position : Point) :
    S × Option E :=
  match style.decoration_color_to_color style.underline_color with
  | some color =>
    ops.fillSolid s
      ⟨⟨position.x, position.y + (style.baseline_offset .alphabetic + 1)⟩,
        ⟨width, 1⟩⟩ color
  | none => (s, none)

/-- `draw_decorations`: strikethrough fill (offset
`baseline_offset(Middle) + 1`) when its color resolves, propagating a fill
error, then the underline part. -/
def BdfTextStyle.draw_decorations {C E S : Type} (style : BdfTextStyle C)
    (ops : TargetOps C E S) (s : S) (width : Nat) (position : Point) :
    S × Option E :=
  match style.decoration_color_to_color style.strikethrough_color with
  | some color =>
    match ops.fillSolid s
        ⟨⟨position.x, position.y + (style.baseline_offset .middle + 1)⟩,
          ⟨width, 1⟩⟩ color with
    | (s1, some err) => (s1, some err)
    | (s1, none) => style.drawUnderlinePart ops s1 width position
  | none => style.drawUnderlinePart ops s width position

/-- `CharacterStyle::set_text_color`: `if let Some(color) = text_color`. -/
def BdfTextStyle.set_text_color {C : Type} (style : BdfTextStyle C)
    (text_color : Option C) : BdfTextStyle C :=
  match text_color with
  | some color => { style with text_color := color }
  | none => style

/-- The per-character loop of `draw_string`: look the glyph up, draw it,
draw its decorations, advance the cursor by `device_width`; a target error
aborts with the state so far; a lookup panic is `none`. -/
def drawStringLoop {C E S : Type} (style : BdfTextStyle C)
    (ops : TargetOps C E S) :
    List Char → Point → S → Option (S × Except E Point)
  | [], position, s => some (s, .ok position)
  | ch :: rest, position, s =>
    match style.font.get_glyph ch with
    | none => none
    | some glyph =>
      match glyph.draw position style.text_color style.background_color
          style.font.data ops s with
      | (s1, some err) => some (s1, .error err)
      | (s1, none) =>
        match style.draw_decorations ops s1 glyph.device_width position with
        | (s2, some err) => some (s2, .error err)
        | (s2, none) =>
          drawStringLoop style ops rest
            ⟨position.x + (glyph.device_width : Int), position.y⟩ s2

/-- `TextRenderer::draw_string`: shift the position by the baseline offset
once, then run the per-character loop. -/
def BdfTextStyle.draw_string {C E S : Type} (style : BdfTextStyle C)
    (ops : TargetOps C E S) (text : List Char) (position : Point)
    (baseline : Baseline) (s : S) : Option (S × Except E Point) :=
  drawStringLoop style ops text
    ⟨position.x, position.y - style.baseline_offset baseline⟩ s

/-- `TextRenderer::draw_whitespace`: `Ok(position + Size::new(width, 0))`,
touching neither the target nor anything else. -/
def BdfTextStyle.draw_whitespace {C E S : Type} (style : BdfTextStyle C)
    (_ops : TargetOps C E S) (width : Nat) (position : Point)
    (_baseline : Baseline) (s : S) : S × Except E Point :=
  (s, .ok ⟨position.x + (width : Nat), position.y⟩)

/-- The metrics record returned by `measure_string`. -/
structure TextMetrics where
  bounding_box : Rectangle
  next_position : Point
deriving DecidableEq

/-- `TextRenderer::measure_string`; `none` models the Rust lookup panic. -/
def BdfTextStyle.measure_string {C : Type} (style : BdfTextStyle C)
    (text : List Char) (position : Point) (baseline : Baseline) :
    Option TextMetrics :=
  (text.mapM fun ch => style.font.get_glyph ch).map fun gs =>
    let string_width : Nat := (gs.map fun g => g.device_width).sum
    let height : Int := (style.line_height : Int)
    let full_height : Int := height + (style.font.font_descent : Int)
    let pos_adj : Point :=
      ⟨position.x, position.y - (style.baseline_offset baseline + height)⟩
    { bounding_box := ⟨pos_adj, ⟨string_width, full_height.toNat⟩⟩,
      next_position := ⟨position.x + (string_width : Int), position.y⟩ }

/-! ### List indexing helpers -/

/-- Length of a `flatMap` whose chunks all have length `k`. -/
theorem length_flatMap_const {α β : Type} (g : α → List β) (k : Nat)
    (hk : ∀ a, (g a).length = k) :
    ∀ xs : List α, (xs.flatMap g).length = xs.length * k := by
  intro xs
  induction xs with
  | nil => simp
  | cons x xs ih =>
    simp only [List.flatMap_cons, List.length_append, ih, hk, List.length_cons]
    rw [Nat.succ_mul]
    omega

/-- Element `n` of a constant-chunk-length `flatMap`: element `n % k` of
chunk `n / k`. -/
theorem getD_flatMap_const {α β : Type} (g : α → List β) (k : Nat)
    (hk : ∀ a, (g a).length = k) (dA : α) (dB : β) :
    ∀ (xs : List α) (n : Nat), n < xs.length * k →
      (xs.flatMap g).getD n dB = (g (xs.getD (n / k) dA)).getD (n % k) dB := by
  intro xs
  induction xs with
  | nil => intro n hn; simp at hn
  | cons x xs ih =>
    intro n hn
    have hkpos : 0 < k := by
      rcases Nat.eq_zero_or_pos k with h0 | h0
      · rw [h0, Nat.mul_zero] at hn; omega
      · exact h0
    rw [List.flatMap_cons]
    by_cases hnk : n < k
    · rw [List.getD_append _ _ _ n (by rw [hk]; exact hnk)]
      rw [Nat.div_eq_of_lt hnk, Nat.mod_eq_of_lt hnk]
      rfl
    · have hkn : k ≤ n := Nat.le_of_not_lt hnk
      obtain ⟨m, rfl⟩ : ∃ m, n = m + k := ⟨n - k, by omega⟩
      rw [List.getD_append_right _ _ _ _ (by rw [hk]; exact hkn), hk]
      rw [Nat.add_sub_cancel, Nat.add_div_right _ hkpos, Nat.add_mod_right]
      have hbound : m < xs.length * k := by
        rw [List.length_cons, Nat.succ_mul] at hn
        omega
      rw [ih m hbound]
      rfl

/-- The bit stream has eight bits per byte. -/
theorem rawBits_length (data : List Nat) :
    (rawBits data).length = data.length * 8 := by
  exact length_flatMap_const byteBits 8 (fun b => by simp [byteBits]) data

/-- Bit `n` of the stream is bit `n % 8` of byte `n / 8`. -/
theorem rawBits_getD (data : List Nat) (n : Nat) (hn : n < data.length * 8) :
    (rawBits data).getD n false = bitAt data n := by
  unfold rawBits bitAt
  rw [getD_flatMap_const byteBits 8 (fun b => by simp [byteBits]) 0 false data n hn]
  have h8 : n % 8 < 8 := Nat.mod_lt _ (by omega)
  unfold byteBits
  rw [List.getD_eq_getElem _ _ (by simpa using h8)]
  simp

/-- The rows of `Rectangle.points`. -/
def pointsRow (r : Rectangle) (dy : Nat) : List Point :=
  (List.range r.size.width).map fun (dx : Nat) =>
    ⟨r.top_left.x + (dx : Int), r.top_left.y + (dy : Int)⟩

theorem points_eq_flatMap_rows (r : Rectangle) :
    r.points = (List.range r.size.height).flatMap (pointsRow r) := rfl

theorem pointsRow_length (r : Rectangle) (dy : Nat) :
    (pointsRow r dy).length = r.size.width := by
  unfold pointsRow
  rw [List.length_map, List.length_range]

/-- A rectangle enumerates `height * width` points. -/
theorem points_length (r : Rectangle) :
    r.points.length = r.size.height * r.size.width := by
  rw [points_eq_flatMap_rows,
    length_flatMap_const (pointsRow r) r.size.width (pointsRow_length r) _,
    List.length_range]

/-- The `i`-th point of the row-major enumeration. -/
theorem points_getD (r : Rectangle) (i : Nat)
    (hi : i < r.size.height * r.size.width) :
    r.points.getD i ⟨0, 0⟩ =
      ⟨r.top_left.x + ((i % r.size.width : Nat) : Int),
        r.top_left.y + ((i / r.size.width : Nat) : Int)⟩ := by
  have hw : 0 < r.size.width := by
    rcases Nat.eq_zero_or_pos r.size.width with h0 | h0
    · rw [h0, Nat.mul_zero] at hi; omega
    · exact h0
  rw [points_eq_flatMap_rows,
    getD_flatMap_const (pointsRow r) r.size.width (pointsRow_length r) 0 ⟨0, 0⟩
      (List.range r.size.height) i (by rw [List.length_range]; exact hi)]
  have hdiv : i / r.size.width < r.size.height :=
    (Nat.div_lt_iff_lt_mul hw).mpr hi
  have hmod : i % r.size.width < r.size.width := Nat.mod_lt _ hw
  have hrow : (List.range r.size.height).getD (i / r.size.width) 0
      = i / r.size.width := by
    rw [List.getD_eq_getElem _ _ (by rw [List.length_range]; exact hdiv),
      List.getElem_range]
  rw [hrow]
  unfold pointsRow
  rw [List.getD_eq_getElem _ _
    (by rw [List.length_map, List.length_range]; exact hmod)]
  rw [List.getElem_map, List.getElem_range]

/-! ### C1: what `BdfGlyph::draw` emits -/

/-- The `i`-th point of the bounding box of the glyph translated to the draw
position, in row-major enumeration order. -/
def glyphPoint (g : BdfGlyph) (position : Point) (i : Nat) : Point :=
  ⟨g.bounding_box.top_left.x + position.x +
      ((i % g.bounding_box.size.width : Nat) : Int),
    g.bounding_box.top_left.y + position.y +
      ((i / g.bounding_box.size.width : Nat) : Int)⟩

/-- The point/bit pairing built by `BdfGlyph::draw`: point `i` of the
translated bounding box against bit `start_index + i` of the blob. -/
theorem zip_points_bits (g : BdfGlyph) (position : Point) (data : List Nat)
    (hfit : g.start_index +
        g.bounding_box.size.width * g.bounding_box.size.height ≤
      8 * data.length) :
    ((g.bounding_box.translate position).points).zip
        ((rawBits data).drop g.start_index) =
      (List.range
          (g.bounding_box.size.width * g.bounding_box.size.height)).map
        fun i => (glyphPoint g position i, bitAt data (g.start_index + i)) := by
  have hplen : ((g.bounding_box.translate position).points).length =
      g.bounding_box.size.width * g.bounding_box.size.height := by
    rw [points_length]
    exact Nat.mul_comm _ _
  have hblen : ((rawBits data).drop g.start_index).length =
      data.length * 8 - g.start_index := by
    rw [List.length_drop, rawBits_length]
  apply List.ext_getElem
  · rw [List.length_zip, hplen, hblen, List.length_map, List.length_range]
    omega
  · intro n h₁ h₂
    rw [List.length_zip, hplen, hblen] at h₁
    rw [List.length_map, List.length_range] at h₂
    rw [List.getElem_zip, List.getElem_map, List.getElem_range]
    have hp : ((g.bounding_box.translate position).points)[n]
        = glyphPoint g position n := by
      rw [← List.getD_eq_getElem _ (⟨0, 0⟩ : Point) (by rw [hplen]; omega)]
      rw [points_getD (g.bounding_box.translate position) n
        (show n < g.bounding_box.size.height * g.bounding_box.size.width by
          rw [Nat.mul_comm]; omega)]
      rfl
    have hb : ((rawBits data).drop g.start_index)[n]
        = bitAt data (g.start_index + n) := by
      rw [List.getElem_drop]
      rw [← List.getD_eq_getElem _ false
        (by rw [rawBits_length]; omega)]
      rw [rawBits_getD _ _ (by omega)]
    rw [hp, hb]

/-- Mapping a foreground/background choice over an indexed point/bit list
is a `filterMap` that always produces a pixel. -/
theorem map_snd_ite {C : Type} (pt : Nat → Point) (bit : Nat → Bool)
    (color bgc : C) :
    ∀ l : List Nat,
      (l.map fun i => (pt i, bit i)).map
          (fun pc => (pc.1, if pc.2 then color else bgc)) =
        l.filterMap fun i =>
          if bit i then some (pt i, color) else some (pt i, bgc) := by
  intro l
  induction l with
  | nil => rfl
  | cons a l ih =>
    by_cases h : bit a <;>
      simp [List.filterMap_cons, h, ih]

/-- Filtering the set bits of an indexed point/bit list and coloring them
is a `filterMap` that drops clear bits. -/
theorem filter_map_snd {C : Type} (pt : Nat → Point) (bit : Nat → Bool)
    (color : C) :
    ∀ l : List Nat,
      ((l.map fun i => (pt i, bit i)).filter fun pc => pc.2).map
          (fun pc => (pc.1, color)) =
        l.filterMap fun i =>
          if bit i then some (pt i, color) else none := by
  intro l
  induction l with
  | nil => rfl
  | cons a l ih =>
    by_cases h : bit a <;>
      simp [List.filterMap_cons, List.filter_cons, h, ih]

/-- Claim C1: `BdfGlyph::draw` pairs bit `start_index + i` of the shared
data blob (LSB-first within consecutive bytes) with the `i`-th point of
the bounding box translated to the position, enumerated row-major, and per
point emits a foreground write when the bit is set, a background write
when the bit is clear and a background color is given, and nothing when
the bit is clear and there is no background color — provided
`start_index + width*height` bits fit in the blob. -/
theorem glyph_draw_emits {C : Type} (g : BdfGlyph) (position : Point)
    (color : C) (bg_color : Option C) (data : List Nat)
    (hfit : g.start_index +
        g.bounding_box.size.width * g.bounding_box.size.height ≤
      8 * data.length) :
    glyphWrites g position color bg_color data =
      (List.range
          (g.bounding_box.size.width * g.bounding_box.size.height)).filterMap
        fun i =>
          if bitAt data (g.start_index + i) then
            some (glyphPoint g position i, color)
          else
            match bg_color with
            | some c => some (glyphPoint g position i, c)
            | none => Option.none := by
  cases bg_color with
  | some bgc =>
    simp only [glyphWrites]
    rw [zip_points_bits g position data hfit]
    rw [map_snd_ite (glyphPoint g position)
      (fun i => bitAt data (g.start_index + i)) color bgc]
  | none =>
    simp only [glyphWrites]
    rw [zip_points_bits g position data hfit]
    rw [filter_map_snd (glyphPoint g position)
      (fun i => bitAt data (g.start_index + i)) color]

/-! ### C2: `get_glyph` lookup correctness -/

/-- `Char.toNat` determines the character. -/
theorem char_toNat_inj {a b : Char} (h : a.toNat = b.toNat) : a = b :=
  Char.eq_of_val_eq (UInt32.ext h)

/-- Strict sortedness, read off at `getD` indices. -/
theorem sorted_getD {xs : List BdfGlyph} (d : BdfGlyph)
    (hsort : xs.Pairwise fun a b => a.character.toNat < b.character.toNat) :
    ∀ i j, i < j → j < xs.length →
      (xs.getD i d).character.toNat < (xs.getD j d).character.toNat := by
  intro i j hij hj
  have hi : i < xs.length := Nat.lt_trans hij hj
  rw [List.getD_eq_getElem _ _ hi, List.getD_eq_getElem _ _ hj]
  have := List.pairwise_iff_get.mp hsort ⟨i, hi⟩ ⟨j, hj⟩ hij
  simpa [List.get_eq_getElem] using this

/-- One non-empty-window step of the binary-search loop. -/
theorem bsGo_succ (xs : List BdfGlyph) (d : BdfGlyph) (c : Char)
    (fuel left right : Nat) (h : left < right) :
    bsGo xs d c (fuel + 1) left right =
      match ccmp (xs.getD (left + (right - left) / 2) d).character c with
      | .lt => bsGo xs d c fuel (left + (right - left) / 2 + 1) right
      | .gt => bsGo xs d c fuel left (left + (right - left) / 2)
      | .eq => .ok (left + (right - left) / 2) := by
  rw [bsGo, if_pos h]

/-- The loop stops on an empty window. -/
theorem bsGo_stop (xs : List BdfGlyph) (d : BdfGlyph) (c : Char)
    (fuel left right : Nat) (h : ¬ left < right) :
    bsGo xs d c (fuel + 1) left right = .error left := by
  rw [bsGo, if_neg h]

/-- Correctness of the binary-search loop: with enough fuel, a window
containing every occurrence of `c`, and a sorted table, the loop either
returns a hit index holding `c` or correctly reports that `c` is absent. -/
theorem bsGo_spec (xs : List BdfGlyph) (d : BdfGlyph) (c : Char)
    (hsort : xs.Pairwise fun a b => a.character.toNat < b.character.toNat) :
    ∀ (fuel left right : Nat), right ≤ xs.length → right - left ≤ fuel →
      (∀ i, i < xs.length → (xs.getD i d).character = c →
        left ≤ i ∧ i < right) →
      (∃ m, bsGo xs d c fuel left right = .ok m ∧ m < xs.length ∧
          (xs.getD m d).character = c) ∨
        (∃ j, bsGo xs d c fuel left right = .error j ∧
          ∀ i, i < xs.length → (xs.getD i d).character ≠ c) := by
  have hmono := sorted_getD d hsort
  intro fuel
  induction fuel with
  | zero =>
    intro left right hr hf hw
    right
    refine ⟨left, rfl, fun i hi hc => ?_⟩
    have := hw i hi hc
    omega
  | succ fuel ih =>
    intro left right hr hf hw
    by_cases hlr : left < right
    · have hmidr : left + (right - left) / 2 < right := by omega
      have hmidlen : left + (right - left) / 2 < xs.length :=
        Nat.lt_of_lt_of_le hmidr hr
      rcases hcmp : ccmp (xs.getD (left + (right - left) / 2) d).character c
        with hc | hc | hc
      · -- probe < target: recurse right
        have hlt : (xs.getD (left + (right - left) / 2) d).character.toNat
            < c.toNat := by
          simpa [ccmp, Nat.compare_eq_lt] using hcmp
        have hstep : bsGo xs d c (fuel + 1) left right =
            bsGo xs d c fuel (left + (right - left) / 2 + 1) right := by
          rw [bsGo_succ xs d c fuel left right hlr, hcmp]
        rw [hstep]
        apply ih (left + (right - left) / 2 + 1) right hr (by omega)
        intro i hi hcchar
        have hwi := hw i hi hcchar
        have hieq : (xs.getD i d).character.toNat = c.toNat := by
          rw [hcchar]
        rcases Nat.lt_trichotomy i (left + (right - left) / 2) with h | h | h
        · have := hmono i (left + (right - left) / 2) h hmidlen
          omega
        · rw [h] at hieq; omega
        · omega
      · -- probe = target: hit
        have heq : (xs.getD (left + (right - left) / 2) d).character.toNat
            = c.toNat := by
          simpa [ccmp, Nat.compare_eq_eq] using hcmp
        left
        refine ⟨left + (right - left) / 2, ?_, hmidlen, char_toNat_inj heq⟩
        rw [bsGo_succ xs d c fuel left right hlr, hcmp]
      · -- probe > target: recurse left
        have hgt : c.toNat
            < (xs.getD (left + (right - left) / 2) d).character.toNat := by
          simpa [ccmp, Nat.compare_eq_gt] using hcmp
        have hstep : bsGo xs d c (fuel + 1) left right =
            bsGo xs d c fuel left (left + (right - left) / 2) := by
          rw [bsGo_succ xs d c fuel left right hlr, hcmp]
        rw [hstep]
        apply ih left (left + (right - left) / 2)
          (Nat.le_of_lt (Nat.lt_of_lt_of_le hmidr hr)) (by omega)
        intro i hi hcchar
        have hwi := hw i hi hcchar
        have hieq : (xs.getD i d).character.toNat = c.toNat := by
          rw [hcchar]
        rcases Nat.lt_trichotomy i (left + (right - left) / 2) with h | h | h
        · omega
        · rw [h] at hieq; omega
        · have := hmono (left + (right - left) / 2) i h hi
          omega
    · right
      refine ⟨left, ?_, fun i hi hc => ?_⟩
      · exact bsGo_stop xs d c fuel left right hlr
      · have := hw i hi hc
        omega

/-- Claim C2: on a table sorted strictly ascending by character, with the
replacement index in range, `get_glyph` returns the matching glyph when
one exists, returns `glyphs[replacement_character]` otherwise, and never
fails. -/
theorem get_glyph_correct (f : BdfFont)
    (hsort : f.glyphs.Pairwise fun a b => a.character.toNat < b.character.toNat)
    (hrep : f.replacement_character < f.glyphs.length) (c : Char) :
    (∀ g, g ∈ f.glyphs → g.character = c → f.get_glyph c = some g) ∧
      ((∀ g, g ∈ f.glyphs → g.character ≠ c) →
        f.get_glyph c = f.glyphs[f.replacement_character]?) ∧
      (f.get_glyph c).isSome = true := by
  have hmono := sorted_getD dfltGlyph hsort
  have hspec := bsGo_spec f.glyphs dfltGlyph c hsort f.glyphs.length 0
    f.glyphs.length (Nat.le_refl _) (by omega)
    (fun i hi _ => ⟨Nat.zero_le i, hi⟩)
  rcases hspec with ⟨m, hrun, hm, hchar⟩ | ⟨j, hrun, habs⟩
  · have hget : f.get_glyph c = some (f.glyphs.getD m dfltGlyph) := by
      unfold BdfFont.get_glyph BdfFont.binary_search
      rw [hrun]
      show f.glyphs[m]? = some (f.glyphs.getD m dfltGlyph)
      rw [List.getElem?_eq_getElem hm, List.getD_eq_getElem _ _ hm]
    refine ⟨?_, ?_, ?_⟩
    · intro g hg hgc
      obtain ⟨⟨i, hi⟩, hig⟩ := List.mem_iff_get.mp hg
      rw [List.get_eq_getElem] at hig
      have hieq : i = m := by
        by_contra hne
        have hic : (f.glyphs.getD i dfltGlyph).character.toNat = c.toNat := by
          rw [List.getD_eq_getElem _ _ hi, hig, hgc]
        have hmc : (f.glyphs.getD m dfltGlyph).character.toNat = c.toNat := by
          rw [hchar]
        rcases Nat.lt_trichotomy i m with h | h | h
        · have := hmono i m h hm; omega
        · exact hne h
        · have := hmono m i h hi; omega
      subst hieq
      rw [hget, List.getD_eq_getElem _ _ hi, hig]
    · intro habs2
      exfalso
      have hmem : f.glyphs.getD m dfltGlyph ∈ f.glyphs := by
        rw [List.getD_eq_getElem _ _ hm]
        exact List.getElem_mem hm
      exact habs2 _ hmem hchar
    · rw [hget]; rfl
  · have hget : f.get_glyph c = f.glyphs[f.replacement_character]? := by
      unfold BdfFont.get_glyph BdfFont.binary_search
      rw [hrun]
    refine ⟨?_, fun _ => hget, ?_⟩
    · intro g hg hgc
      exfalso
      obtain ⟨⟨i, hi⟩, hig⟩ := List.mem_iff_get.mp hg
      rw [List.get_eq_getElem] at hig
      refine habs i hi ?_
      rw [List.getD_eq_getElem _ _ hi, hig, hgc]
    · rw [hget, List.getElem?_eq_getElem hrep]
      rfl

/-! ### Recording / failing test targets -/

/-- A recording target state: the pixel writes and the solid fills
performed so far, in order. -/
structure RecState (C : Type) where
  written : List (Point × C)
  fills : List (Rectangle × C)
deriving DecidableEq

/-- A target that records every pixel write and fill and never fails. -/
def recOps (C E : Type) : TargetOps C E (RecState C) :=
  ⟨fun s p c => (⟨s.written ++ [(p, c)], s.fills⟩, none),
    fun s r c => (⟨s.written, s.fills ++ [(r, c)]⟩, none)⟩

/-- A target that records pixel writes but fails with error `e` on the
write that would be number `n` (0-based); fills are recorded and always
succeed. -/
def failOps {C E : Type} (e : E) (n : Nat) : TargetOps C E (RecState C) :=
  ⟨fun s p c =>
      if s.written.length = n then (s, some e)
      else (⟨s.written ++ [(p, c)], s.fills⟩, none),
    fun s r c => (⟨s.written, s.fills ++ [(r, c)]⟩, none)⟩

/-! ### C4 and C7: baseline and line-height arithmetic -/

/-- Claim C7: `line_height()` is `max(0, font_ascent + line_spacing)`,
computed in exact signed arithmetic before the clamp. -/
theorem line_height_correct {C : Type} (style : BdfTextStyle C) :
    (style.line_height : Int) =
      max 0 ((style.font.font_ascent : Int) + style.height_adjust) := by
  unfold BdfTextStyle.line_height
  rw [Int.toNat_of_nonneg (le_max_right _ 0)]
  rw [max_comm]

/-- Claim C4: the four `baseline_offset` formulas (`Middle` with division
truncated toward zero), and their values on a font with ascent 8,
descent 2 and zero line-spacing adjustment. -/
theorem baseline_offset_correct {C : Type} (style : BdfTextStyle C) :
    style.baseline_offset .top = -((style.line_height : Int) - 1) ∧
      style.baseline_offset .middle =
        Int.tdiv (-((style.line_height : Int) - 1)) 2 ∧
      style.baseline_offset .alphabetic = 0 ∧
      style.baseline_offset .bottom = (style.font.font_descent : Int) ∧
      (style.font.font_ascent = 8 → style.font.font_descent = 2 →
        style.height_adjust = 0 →
        style.line_height = 8 ∧
          style.baseline_offset .top = -7 ∧
          style.baseline_offset .middle = -3 ∧
          style.baseline_offset .alphabetic = 0 ∧
          style.baseline_offset .bottom = 2) := by
  refine ⟨rfl, rfl, rfl, rfl, fun h1 h2 h3 => ?_⟩
  have hlh : style.line_height = 8 := by
    unfold BdfTextStyle.line_height
    rw [h1, h3]
    rfl
  refine ⟨hlh, ?_, ?_, rfl, ?_⟩
  · unfold BdfTextStyle.baseline_offset
    rw [hlh]
    rfl
  · unfold BdfTextStyle.baseline_offset
    rw [hlh]
    rfl
  · unfold BdfTextStyle.baseline_offset
    rw [h2]
    rfl

/-- Claim C9: `draw_whitespace` performs no target writes, always
succeeds, and advances the position horizontally by `width`. -/
theorem draw_whitespace_correct {C E S : Type} (style : BdfTextStyle C)
    (ops : TargetOps C E S) (width : Nat) (position : Point)
    (baseline : Baseline) (s : S) :
    style.draw_whitespace ops width position baseline s =
      (s, Except.ok ⟨position.x + (width : Int), position.y⟩) :=
  rfl

/-- Claim C10: `set_text_color` with `None` is the identity, and with
`Some c` it sets `text_color` to `c` and changes no other field. -/
theorem set_text_color_correct {C : Type} (style : BdfTextStyle C) (c : C) :
    style.set_text_color Option.none = style ∧
      (style.set_text_color (some c)).text_color = c ∧
      (style.set_text_color (some c)).font = style.font ∧
      (style.set_text_color (some c)).background_color =
        style.background_color ∧
      (style.set_text_color (some c)).underline_color =
        style.underline_color ∧
      (style.set_text_color (some c)).strikethrough_color =
        style.strikethrough_color ∧
      (style.set_text_color (some c)).height_adjust = style.height_adjust :=
  ⟨rfl, rfl, rfl, rfl, rfl, rfl, rfl⟩

/-- The fills `draw_decorations` would perform: the strikethrough one,
then the underline one, each when its color resolves. -/
def decorationFills {C : Type} (style : BdfTextStyle C) (width : Nat)
    (position : Point) : List (Rectangle × C) :=
  (match style.decoration_color_to_color style.strikethrough_color with
    | some col =>
      [(⟨⟨position.x, position.y + (style.baseline_offset .middle + 1)⟩,
          ⟨width, 1⟩⟩, col)]
    | none => []) ++
    (match style.decoration_color_to_color style.underline_color with
      | some col =>
        [(⟨⟨position.x, position.y + (style.baseline_offset .alphabetic + 1)⟩,
            ⟨width, 1⟩⟩, col)]
      | none => [])

/-- On any target whose `fillSolid` is the infallible recording one,
`draw_decorations` appends exactly `decorationFills` and succeeds. -/
theorem draw_decorations_recording {C E : Type} (style : BdfTextStyle C)
    (ops : TargetOps C E (RecState C))
    (hfill : ∀ s r c, ops.fillSolid s r c =
      (⟨s.written, s.fills ++ [(r, c)]⟩, none))
    (width : Nat) (position : Point) (wr : List (Point × C))
    (fls : List (Rectangle × C)) :
    style.draw_decorations ops ⟨wr, fls⟩ width position =
      (⟨wr, fls ++ decorationFills style width position⟩, none) := by
  unfold BdfTextStyle.draw_decorations BdfTextStyle.drawUnderlinePart
    decorationFills
  cases hst : style.decoration_color_to_color style.strikethrough_color with
  | some col =>
    cases hun : style.decoration_color_to_color style.underline_color with
    | some col2 => simp [hfill]
    | none => simp [hfill]
  | none =>
    cases hun : style.decoration_color_to_color style.underline_color with
    | some col2 => simp [hfill]
    | none => simp [hfill]

/-- Claim C5: on a recording target, `draw_decorations` performs exactly
the strikethrough fill (one-pixel-tall, `width` wide, vertical offset
`baseline_offset(Middle) + 1`) and then the underline fill (vertical
offset `baseline_offset(Alphabetic) + 1`), each only when its decoration
color resolves, with resolution `None ↦ skip`, `TextColor ↦ text_color`,
`Custom(c) ↦ c`; it performs no pixel writes and cannot fail there. -/
theorem draw_decorations_correct {C E : Type} (style : BdfTextStyle C)
    (width : Nat) (position : Point) (s : RecState C) :
    style.draw_decorations (recOps C E) s width position =
      (⟨s.written,
        s.fills ++
          (match style.decoration_color_to_color style.strikethrough_color with
            | some col =>
              [(⟨⟨position.x,
                    position.y + (style.baseline_offset .middle + 1)⟩,
                  ⟨width, 1⟩⟩, col)]
            | none => []) ++
          (match style.decoration_color_to_color style.underline_color with
            | some col =>
              [(⟨⟨position.x,
                    position.y + (style.baseline_offset .alphabetic + 1)⟩,
                  ⟨width, 1⟩⟩, col)]
            | none => [])⟩,
        none) ∧
      style.decoration_color_to_color DecorationColor.none = Option.none ∧
      style.decoration_color_to_color DecorationColor.textColor =
        some style.text_color ∧
      ∀ cc : C, style.decoration_color_to_color (DecorationColor.custom cc) =
        some cc := by
  cases s with
  | mk wr fls =>
    refine ⟨?_, rfl, rfl, fun cc => rfl⟩
    rw [draw_decorations_recording style (recOps C E) (fun s r c => rfl)
      width position wr fls]
    unfold decorationFills
    rw [← List.append_assoc]

/-! ### C3 and C6: advance and metrics -/

/-- Splitting a successful `mapM` over a cons cell. -/
theorem mapM_cons_some {α β : Type} (f : α → Option β) (a : α) (l : List α)
    (bs : List β) (h : (a :: l).mapM f = some bs) :
    ∃ b bs2, f a = some b ∧ l.mapM f = some bs2 ∧ bs = b :: bs2 := by
  rw [List.mapM_cons] at h
  cases hfa : f a with
  | none => rw [hfa] at h; simp at h
  | some b =>
    rw [hfa] at h
    cases hml : l.mapM f with
    | none => rw [hml] at h; simp at h
    | some bs2 =>
      rw [hml] at h
      simp at h
      exact ⟨b, bs2, rfl, rfl, h.symm⟩

/-- A successful `drawStringLoop` ends at the start position advanced
horizontally by the summed `device_width` of the resolved glyphs, with
the vertical coordinate unchanged. -/
theorem drawStringLoop_advance {C E S : Type} (style : BdfTextStyle C)
    (ops : TargetOps C E S) :
    ∀ (text : List Char) (gs : List BdfGlyph) (pos : Point) (s s2 : S)
      (fin : Point),
      text.mapM (fun ch => style.font.get_glyph ch) = some gs →
      drawStringLoop style ops text pos s = some (s2, .ok fin) →
      fin = ⟨pos.x + (((gs.map fun g => g.device_width).sum : Nat) : Int),
        pos.y⟩ := by
  intro text
  induction text with
  | nil =>
    intro gs pos s s2 fin hm hl
    rw [List.mapM_nil] at hm
    have hgs : gs = [] := by simpa using hm.symm
    subst hgs
    unfold drawStringLoop at hl
    have h2 : s = s2 ∧ pos = fin := by simpa using hl
    rw [← h2.2]
    cases pos
    simp
  | cons ch rest ih =>
    intro gs pos s s2 fin hm hl
    obtain ⟨g, gs2, hg, hrest, rfl⟩ := mapM_cons_some _ ch rest gs hm
    unfold drawStringLoop at hl
    simp only [hg] at hl
    rcases hdraw : g.draw pos style.text_color style.background_color
        style.font.data ops s with ⟨s1, oe⟩
    cases oe with
    | some err => simp only [hdraw] at hl; simp at hl
    | none =>
      simp only [hdraw] at hl
      rcases hdec : style.draw_decorations ops s1 g.device_width pos
        with ⟨sb, oe2⟩
      cases oe2 with
      | some err => simp only [hdec] at hl; simp at hl
      | none =>
        simp only [hdec] at hl
        have := ih gs2 ⟨pos.x + (g.device_width : Int), pos.y⟩ sb s2 fin
          hrest hl
        rw [this]
        simp [Point.mk.injEq]
        ring

/-- Claim C3: the bounding-box width of `measure_string` is the sum of
`device_width` over the resolved glyphs, and that sum is the horizontal
delta between the start position of `draw_string` and its returned final
position whenever `draw_string` succeeds. -/
theorem measure_draw_advance {C E S : Type} (style : BdfTextStyle C)
    (ops : TargetOps C E S) (text : List Char) (position : Point)
    (baseline : Baseline) (gs : List BdfGlyph) (s0 s1 : S) (fin : Point)
    (hres : text.mapM (fun ch => style.font.get_glyph ch) = some gs)
    (hdraw : style.draw_string ops text position baseline s0 =
      some (s1, .ok fin)) :
    ∃ m, style.measure_string text position baseline = some m ∧
      m.bounding_box.size.width = (gs.map fun g => g.device_width).sum ∧
      fin.x - position.x = (((gs.map fun g => g.device_width).sum : Nat) :
        Int) := by
  have hmeas : style.measure_string text position baseline =
      some ⟨⟨⟨position.x, position.y -
            (style.baseline_offset baseline + (style.line_height : Int))⟩,
          ⟨(gs.map fun g => g.device_width).sum,
            ((style.line_height : Int) +
              (style.font.font_descent : Int)).toNat⟩⟩,
        ⟨position.x + (((gs.map fun g => g.device_width).sum : Nat) : Int),
          position.y⟩⟩ := by
    unfold BdfTextStyle.measure_string
    rw [hres]
    rfl
  refine ⟨_, hmeas, rfl, ?_⟩
  · unfold BdfTextStyle.draw_string at hdraw
    have hfin := drawStringLoop_advance style ops text gs
      ⟨position.x, position.y - style.baseline_offset baseline⟩ s0 s1 fin
      hres hdraw
    rw [hfin]
    ring

/-- Claim C6: `measure_string` returns a box of height
`line_height() + font_descent` and a `next_position` that is the input
position advanced horizontally by the summed advance width, vertical
component unchanged. -/
theorem measure_string_metrics {C : Type} (style : BdfTextStyle C)
    (text : List Char) (position : Point) (baseline : Baseline)
    (gs : List BdfGlyph)
    (hres : text.mapM (fun ch => style.font.get_glyph ch) = some gs) :
    ∃ m, style.measure_string text position baseline = some m ∧
      m.bounding_box.size.height =
        style.line_height + style.font.font_descent ∧
      m.next_position =
        ⟨position.x + (((gs.map fun g => g.device_width).sum : Nat) : Int),
          position.y⟩ := by
  have hmeas : style.measure_string text position baseline =
      some ⟨⟨⟨position.x, position.y -
            (style.baseline_offset baseline + (style.line_height : Int))⟩,
          ⟨(gs.map fun g => g.device_width).sum,
            ((style.line_height : Int) +
              (style.font.font_descent : Int)).toNat⟩⟩,
        ⟨position.x + (((gs.map fun g => g.device_width).sum : Nat) : Int),
          position.y⟩⟩ := by
    unfold BdfTextStyle.measure_string
    rw [hres]
    rfl
  refine ⟨_, hmeas, ?_, rfl⟩
  show (((style.line_height : Int) +
    (style.font.font_descent : Int)).toNat) = _
  omega

/-! ### C8: fail-fast error propagation in `draw_string` -/

/-- The full pixel-write sequence a `draw_string` loop submits for a
resolved glyph list starting at `pos`: the writes of each glyph in order,
cursors advancing by `device_width`. -/
def stringWrites {C : Type} (style : BdfTextStyle C) :
    List BdfGlyph → Point → List (Point × C)
  | [], _ => []
  | g :: gs, pos =>
    glyphWrites g pos style.text_color style.background_color
        style.font.data ++
      stringWrites style gs ⟨pos.x + (g.device_width : Int), pos.y⟩

/-- `runPixels` unfolded one step on a non-empty batch. -/
theorem runPixels_cons {C E S : Type} (ops : TargetOps C E S)
    (pc : Point × C) (rest : List (Point × C)) (s : S) :
    runPixels ops (pc :: rest) s =
      match ops.drawPixel s pc.1 pc.2 with
      | (s1, some err) => (s1, some err)
      | (s1, none) => runPixels ops rest s1 := by
  rw [runPixels]

/-- `runPixels` on the budget-`n` failing target completes when the batch
ends before write number `n`, appending every pixel. -/
theorem runPixels_failOps_complete {C E : Type} (e : E) (n : Nat) :
    ∀ (ws wr : List (Point × C)) (fls : List (Rectangle × C)),
      wr.length + ws.length ≤ n →
      runPixels (failOps e n) ws ⟨wr, fls⟩ = (⟨wr ++ ws, fls⟩, none) := by
  intro ws
  induction ws with
  | nil =>
    intro wr fls h
    unfold runPixels
    simp
  | cons pc rest ih =>
    intro wr fls h
    rw [List.length_cons] at h
    have hne : ¬ wr.length = n := by omega
    have hpx : (failOps e n).drawPixel ⟨wr, fls⟩ pc.1 pc.2 =
        (⟨wr ++ [pc], fls⟩, none) := by
      simp only [failOps]
      rw [if_neg hne]
    rw [runPixels_cons]
    simp only [hpx]
    rw [ih (wr ++ [pc]) fls (by simp; omega)]
    simp

/-- `runPixels` on the budget-`n` failing target stops at write number
`n` with error `e`, having appended exactly the first `n - |wr|` pixels
of the batch. -/
theorem runPixels_failOps_fail {C E : Type} (e : E) (n : Nat) :
    ∀ (ws wr : List (Point × C)) (fls : List (Rectangle × C)),
      wr.length ≤ n → n < wr.length + ws.length →
      runPixels (failOps e n) ws ⟨wr, fls⟩ =
        (⟨wr ++ ws.take (n - wr.length), fls⟩, some e) := by
  intro ws
  induction ws with
  | nil =>
    intro wr fls h1 h2
    simp at h2
    omega
  | cons pc rest ih =>
    intro wr fls h1 h2
    rw [List.length_cons] at h2
    rw [runPixels_cons]
    by_cases hlen : wr.length = n
    · have hpx : (failOps e n).drawPixel ⟨wr, fls⟩ pc.1 pc.2 =
          (⟨wr, fls⟩, some e) := by
        simp only [failOps]
        rw [if_pos hlen]
      simp only [hpx]
      rw [hlen, Nat.sub_self, List.take_zero, List.append_nil]
    · have hpx : (failOps e n).drawPixel ⟨wr, fls⟩ pc.1 pc.2 =
          (⟨wr ++ [pc], fls⟩, none) := by
        simp only [failOps]
        rw [if_neg hlen]
      simp only [hpx]
      rw [ih (wr ++ [pc]) fls (by simp; omega) (by simp; omega)]
      have hsub : n - wr.length = (n - (wr.length + 1)) + 1 := by omega
      rw [hsub, List.take_succ_cons]
      simp

/-- On the budget-`n` failing target, `draw_decorations` never fails and
leaves the recorded pixel writes unchanged. -/
theorem draw_decorations_failOps {C E : Type} (style : BdfTextStyle C)
    (e : E) (n : Nat) (wr : List (Point × C)) (fls : List (Rectangle × C))
    (width : Nat) (position : Point) :
    style.draw_decorations (failOps e n) ⟨wr, fls⟩ width position =
      (⟨wr, fls ++ decorationFills style width position⟩, none) :=
  draw_decorations_recording style (failOps e n) (fun s r c => rfl)
    width position wr fls

/-- The draw loop on the budget-`n` failing target: when the full write
sequence would exceed `n` writes, the loop stops with error `e` having
recorded exactly the first `n` writes (counted from what the state
already holds). -/
theorem drawStringLoop_failOps {C E : Type} (style : BdfTextStyle C)
    (e : E) (n : Nat) :
    ∀ (text : List Char) (gs : List BdfGlyph) (pos : Point)
      (wr : List (Point × C)) (fls : List (Rectangle × C)),
      text.mapM (fun ch => style.font.get_glyph ch) = some gs →
      wr.length ≤ n →
      n < wr.length + (stringWrites style gs pos).length →
      ∃ s2 : RecState C,
        drawStringLoop style (failOps e n) text pos ⟨wr, fls⟩ =
          some (s2, .error e) ∧
        s2.written =
          wr ++ (stringWrites style gs pos).take (n - wr.length) := by
  intro text
  induction text with
  | nil =>
    intro gs pos wr fls hm h1 h2
    rw [List.mapM_nil] at hm
    have hgs : gs = [] := by simpa using hm.symm
    subst hgs
    unfold stringWrites at h2
    simp at h2
    omega
  | cons ch rest ih =>
    intro gs pos wr fls hm h1 h2
    obtain ⟨g, gs2, hg, hrest, rfl⟩ := mapM_cons_some _ ch rest gs hm
    have hsw : stringWrites style (g :: gs2) pos =
        glyphWrites g pos style.text_color style.background_color
            style.font.data ++
          stringWrites style gs2 ⟨pos.x + (g.device_width : Int), pos.y⟩ :=
      rfl
    rw [hsw, List.length_append] at h2
    unfold drawStringLoop
    simp only [hg]
    by_cases hcase : n < wr.length +
        (glyphWrites g pos style.text_color style.background_color
          style.font.data).length
    · -- the failing write happens inside this glyph
      have hdraw : g.draw pos style.text_color style.background_color
          style.font.data (failOps e n) ⟨wr, fls⟩ =
          (⟨wr ++ (glyphWrites g pos style.text_color style.background_color
              style.font.data).take (n - wr.length), fls⟩, some e) :=
        runPixels_failOps_fail e n _ wr fls h1 hcase
      simp only [hdraw]
      refine ⟨_, rfl, ?_⟩
      rw [hsw, List.take_append_eq_append_take]
      have hzero : n - wr.length -
          (glyphWrites g pos style.text_color style.background_color
            style.font.data).length = 0 := by omega
      rw [hzero, List.take_zero, List.append_nil]
    · -- this glyph completes; recurse
      have hle : wr.length +
          (glyphWrites g pos style.text_color style.background_color
            style.font.data).length ≤ n := by omega
      have hdraw : g.draw pos style.text_color style.background_color
          style.font.data (failOps e n) ⟨wr, fls⟩ =
          (⟨wr ++ glyphWrites g pos style.text_color style.background_color
              style.font.data, fls⟩, none) :=
        runPixels_failOps_complete e n _ wr fls hle
      simp only [hdraw]
      have hdec := draw_decorations_failOps style e n
        (wr ++ glyphWrites g pos style.text_color style.background_color
          style.font.data) fls g.device_width pos
      simp only [hdec]
      obtain ⟨s2, hloop, hw⟩ := ih gs2
        ⟨pos.x + (g.device_width : Int), pos.y⟩
        (wr ++ glyphWrites g pos style.text_color style.background_color
          style.font.data)
        (fls ++ decorationFills style g.device_width pos) hrest
        (by rw [List.length_append]; omega)
        (by rw [List.length_append]; omega)
      refine ⟨s2, hloop, ?_⟩
      rw [hw, hsw, List.take_append_eq_append_take]
      rw [List.take_of_length_le
        (show (glyphWrites g pos style.text_color style.background_color
          style.font.data).length ≤ n - wr.length by omega)]
      rw [List.length_append, Nat.sub_sub, List.append_assoc]


/-- A target that records every pixel write (these always succeed) but
fails with error `e` on the solid fill that would be number `k`
(0-based); earlier fills are recorded. -/
def fillFailOps {C E : Type} (e : E) (k : Nat) : TargetOps C E (RecState C) :=
  ⟨fun s p c => (⟨s.written ++ [(p, c)], s.fills⟩, none),
    fun s r c =>
      if s.fills.length = k then (s, some e)
      else (⟨s.written, s.fills ++ [(r, c)]⟩, none)⟩

/-- The full solid-fill sequence a `draw_string` loop submits for a
resolved glyph list starting at `pos`: the decoration fills of each
glyph in order, cursors advancing by `device_width`. -/
def stringFills {C : Type} (style : BdfTextStyle C) :
    List BdfGlyph → Point → List (Rectangle × C)
  | [], _ => []
  | g :: gs, pos =>
    decorationFills style g.device_width pos ++
      stringFills style gs ⟨pos.x + (g.device_width : Int), pos.y⟩

/-- Pixel writes on the fill-failing target always succeed and are all
recorded. -/
theorem runPixels_fillFailOps {C E : Type} (e : E) (k : Nat) :
    ∀ (ws wr : List (Point × C)) (fls : List (Rectangle × C)),
      runPixels (fillFailOps e k) ws ⟨wr, fls⟩ = (⟨wr ++ ws, fls⟩, none) := by
  intro ws
  induction ws with
  | nil =>
    intro wr fls
    unfold runPixels
    simp
  | cons pc rest ih =>
    intro wr fls
    rw [runPixels_cons]
    have hpx : (fillFailOps e k).drawPixel ⟨wr, fls⟩ pc.1 pc.2 =
        (⟨wr ++ [pc], fls⟩, none) := rfl
    simp only [hpx]
    rw [ih (wr ++ [pc]) fls]
    simp

/-- On the fill-failing target, `draw_decorations` completes and appends
all its fills when the fill budget `k` is not yet reached. -/
theorem draw_decorations_fillFailOps_complete {C E : Type}
    (style : BdfTextStyle C) (e : E) (k : Nat) (wr : List (Point × C))
    (fls : List (Rectangle × C)) (width : Nat) (position : Point)
    (h : fls.length + (decorationFills style width position).length ≤ k) :
    style.draw_decorations (fillFailOps e k) ⟨wr, fls⟩ width position =
      (⟨wr, fls ++ decorationFills style width position⟩, none) := by
  unfold BdfTextStyle.draw_decorations BdfTextStyle.drawUnderlinePart
  cases hst : style.decoration_color_to_color style.strikethrough_color with
  | some col =>
    cases hun : style.decoration_color_to_color style.underline_color with
    | some col2 =>
      have hlen : (decorationFills style width position).length = 2 := by
        simp [decorationFills, hst, hun]
      rw [hlen] at h
      have hf1 : (fillFailOps e k).fillSolid ⟨wr, fls⟩
          ⟨⟨position.x, position.y + (style.baseline_offset .middle + 1)⟩,
            ⟨width, 1⟩⟩ col =
          (⟨wr, fls ++
            [(⟨⟨position.x,
                  position.y + (style.baseline_offset .middle + 1)⟩,
                ⟨width, 1⟩⟩, col)]⟩, none) := by
        simp only [fillFailOps]
        rw [if_neg (by omega)]
      have hf2 : (fillFailOps e k).fillSolid
          ⟨wr, fls ++
            [(⟨⟨position.x,
                  position.y + (style.baseline_offset .middle + 1)⟩,
                ⟨width, 1⟩⟩, col)]⟩
          ⟨⟨position.x, position.y + (style.baseline_offset .alphabetic + 1)⟩,
            ⟨width, 1⟩⟩ col2 =
          (⟨wr, (fls ++
              [(⟨⟨position.x,
                    position.y + (style.baseline_offset .middle + 1)⟩,
                  ⟨width, 1⟩⟩, col)]) ++
            [(⟨⟨position.x,
                  position.y + (style.baseline_offset .alphabetic + 1)⟩,
                ⟨width, 1⟩⟩, col2)]⟩, none) := by
        simp only [fillFailOps]
        rw [if_neg (by simp [List.length_append]; omega)]
      simp only [hst, hun, hf1, hf2]
      simp [decorationFills, hst, hun]
    | none =>
      have hlen : (decorationFills style width position).length = 1 := by
        simp [decorationFills, hst, hun]
      rw [hlen] at h
      have hf1 : (fillFailOps e k).fillSolid ⟨wr, fls⟩
          ⟨⟨position.x, position.y + (style.baseline_offset .middle + 1)⟩,
            ⟨width, 1⟩⟩ col =
          (⟨wr, fls ++
            [(⟨⟨position.x,
                  position.y + (style.baseline_offset .middle + 1)⟩,
                ⟨width, 1⟩⟩, col)]⟩, none) := by
        simp only [fillFailOps]
        rw [if_neg (by omega)]
      simp only [hst, hun, hf1]
      simp [decorationFills, hst, hun]
  | none =>
    cases hun : style.decoration_color_to_color style.underline_color with
    | some col2 =>
      have hlen : (decorationFills style width position).length = 1 := by
        simp [decorationFills, hst, hun]
      rw [hlen] at h
      have hf2 : (fillFailOps e k).fillSolid ⟨wr, fls⟩
          ⟨⟨position.x, position.y + (style.baseline_offset .alphabetic + 1)⟩,
            ⟨width, 1⟩⟩ col2 =
          (⟨wr, fls ++
            [(⟨⟨position.x,
                  position.y + (style.baseline_offset .alphabetic + 1)⟩,
                ⟨width, 1⟩⟩, col2)]⟩, none) := by
        simp only [fillFailOps]
        rw [if_neg (by omega)]
      simp only [hst, hun, hf2]
      simp [decorationFills, hst, hun]
    | none =>
      simp only [hst, hun]
      simp [decorationFills, hst, hun]

/-- On the fill-failing target, `draw_decorations` stops with error `e`
at fill number `k`, having recorded exactly the earlier fills, and the
recorded pixel writes are untouched. -/
theorem draw_decorations_fillFailOps_fail {C E : Type}
    (style : BdfTextStyle C) (e : E) (k : Nat) (wr : List (Point × C))
    (fls : List (Rectangle × C)) (width : Nat) (position : Point)
    (h1 : fls.length ≤ k)
    (h2 : k < fls.length + (decorationFills style width position).length) :
    style.draw_decorations (fillFailOps e k) ⟨wr, fls⟩ width position =
      (⟨wr, fls ++
          (decorationFills style width position).take (k - fls.length)⟩,
        some e) := by
  unfold BdfTextStyle.draw_decorations BdfTextStyle.drawUnderlinePart
  cases hst : style.decoration_color_to_color style.strikethrough_color with
  | some col =>
    cases hun : style.decoration_color_to_color style.underline_color with
    | some col2 =>
      have hlen : (decorationFills style width position).length = 2 := by
        simp [decorationFills, hst, hun]
      rw [hlen] at h2
      by_cases hk : fls.length = k
      · have hf1 : (fillFailOps e k).fillSolid ⟨wr, fls⟩
            ⟨⟨position.x, position.y + (style.baseline_offset .middle + 1)⟩,
              ⟨width, 1⟩⟩ col = (⟨wr, fls⟩, some e) := by
          simp only [fillFailOps]
          rw [if_pos hk]
        simp only [hst, hun, hf1]
        rw [hk, Nat.sub_self, List.take_zero, List.append_nil]
      · have hf1 : (fillFailOps e k).fillSolid ⟨wr, fls⟩
            ⟨⟨position.x, position.y + (style.baseline_offset .middle + 1)⟩,
              ⟨width, 1⟩⟩ col =
            (⟨wr, fls ++
              [(⟨⟨position.x,
                    position.y + (style.baseline_offset .middle + 1)⟩,
                  ⟨width, 1⟩⟩, col)]⟩, none) := by
          simp only [fillFailOps]
          rw [if_neg hk]
        have hk2 : (fls ++
            [((⟨⟨position.x,
                  position.y + (style.baseline_offset .middle + 1)⟩,
                ⟨width, 1⟩⟩ : Rectangle), col)]).length = k := by
          simp [List.length_append]
          omega
        have hf2 : (fillFailOps e k).fillSolid
            ⟨wr, fls ++
              [(⟨⟨position.x,
                    position.y + (style.baseline_offset .middle + 1)⟩,
                  ⟨width, 1⟩⟩, col)]⟩
            ⟨⟨position.x,
                position.y + (style.baseline_offset .alphabetic + 1)⟩,
              ⟨width, 1⟩⟩ col2 =
            (⟨wr, fls ++
              [(⟨⟨position.x,
                    position.y + (style.baseline_offset .middle + 1)⟩,
                  ⟨width, 1⟩⟩, col)]⟩, some e) := by
          simp only [fillFailOps]
          rw [if_pos hk2]
        simp only [hst, hun, hf1, hf2]
        have hone : k - fls.length = 1 := by omega
        rw [hone]
        simp [decorationFills, hst, hun]
    | none =>
      have hlen : (decorationFills style width position).length = 1 := by
        simp [decorationFills, hst, hun]
      rw [hlen] at h2
      have hk : fls.length = k := by omega
      have hf1 : (fillFailOps e k).fillSolid ⟨wr, fls⟩
          ⟨⟨position.x, position.y + (style.baseline_offset .middle + 1)⟩,
            ⟨width, 1⟩⟩ col = (⟨wr, fls⟩, some e) := by
        simp only [fillFailOps]
        rw [if_pos hk]
      simp only [hst, hun, hf1]
      rw [hk, Nat.sub_self, List.take_zero, List.append_nil]
  | none =>
    cases hun : style.decoration_color_to_color style.underline_color with
    | some col2 =>
      have hlen : (decorationFills style width position).length = 1 := by
        simp [decorationFills, hst, hun]
      rw [hlen] at h2
      have hk : fls.length = k := by omega
      have hf2 : (fillFailOps e k).fillSolid ⟨wr, fls⟩
          ⟨⟨position.x, position.y + (style.baseline_offset .alphabetic + 1)⟩,
            ⟨width, 1⟩⟩ col2 = (⟨wr, fls⟩, some e) := by
        simp only [fillFailOps]
        rw [if_pos hk]
      simp only [hst, hun, hf2]
      rw [hk, Nat.sub_self, List.take_zero, List.append_nil]
    | none =>
      have hlen : (decorationFills style width position).length = 0 := by
        simp [decorationFills, hst, hun]
      rw [hlen] at h2
      omega

/-- The draw loop on the fill-failing target: when the full fill
sequence would exceed `k` fills, the loop stops with error `e` during
the decorations of some glyph `j`; the recorded pixel writes are exactly
those of glyphs `0..j` and the recorded fills are exactly the first `k`
(counted from what the state already holds). -/
theorem drawStringLoop_fillFailOps {C E : Type} (style : BdfTextStyle C)
    (e : E) (k : Nat) :
    ∀ (text : List Char) (gs : List BdfGlyph) (pos : Point)
      (wr : List (Point × C)) (fls : List (Rectangle × C)),
      text.mapM (fun ch => style.font.get_glyph ch) = some gs →
      fls.length ≤ k →
      k < fls.length + (stringFills style gs pos).length →
      ∃ (s2 : RecState C) (j : Nat),
        drawStringLoop style (fillFailOps e k) text pos ⟨wr, fls⟩ =
          some (s2, .error e) ∧
        j < gs.length ∧
        fls.length + (stringFills style (gs.take j) pos).length ≤ k ∧
        k < fls.length + (stringFills style (gs.take (j + 1)) pos).length ∧
        s2.written = wr ++ stringWrites style (gs.take (j + 1)) pos ∧
        s2.fills =
          fls ++ (stringFills style gs pos).take (k - fls.length) := by
  intro text
  induction text with
  | nil =>
    intro gs pos wr fls hm h1 h2
    rw [List.mapM_nil] at hm
    have hgs : gs = [] := by simpa using hm.symm
    subst hgs
    unfold stringFills at h2
    simp at h2
    omega
  | cons ch rest ih =>
    intro gs pos wr fls hm h1 h2
    obtain ⟨g, gs2, hg, hrest, rfl⟩ := mapM_cons_some _ ch rest gs hm
    have hsf : stringFills style (g :: gs2) pos =
        decorationFills style g.device_width pos ++
          stringFills style gs2 ⟨pos.x + (g.device_width : Int), pos.y⟩ :=
      rfl
    rw [hsf, List.length_append] at h2
    unfold drawStringLoop
    simp only [hg]
    have hdraw : g.draw pos style.text_color style.background_color
        style.font.data (fillFailOps e k) ⟨wr, fls⟩ =
        (⟨wr ++ glyphWrites g pos style.text_color style.background_color
            style.font.data, fls⟩, none) :=
      runPixels_fillFailOps e k _ wr fls
    simp only [hdraw]
    by_cases hcase : k < fls.length +
        (decorationFills style g.device_width pos).length
    · -- the failing fill happens during the decorations of this glyph
      have hdec := draw_decorations_fillFailOps_fail style e k
        (wr ++ glyphWrites g pos style.text_color style.background_color
          style.font.data) fls g.device_width pos h1 hcase
      simp only [hdec]
      refine ⟨_, 0, rfl, by simp, ?_, ?_, ?_, ?_⟩
      · simpa [stringFills] using h1
      · rw [List.take_succ_cons, List.take_zero]
        rw [show stringFills style [g] pos =
          decorationFills style g.device_width pos ++ [] from rfl]
        rw [List.append_nil]
        omega
      · rw [List.take_succ_cons, List.take_zero]
        rw [show stringWrites style [g] pos =
          glyphWrites g pos style.text_color style.background_color
            style.font.data ++ [] from rfl]
        rw [List.append_nil]
      · rw [hsf, List.take_append_eq_append_take]
        have hzero : k - fls.length -
            (decorationFills style g.device_width pos).length = 0 := by
          omega
        rw [hzero, List.take_zero, List.append_nil]
    · -- the decorations of this glyph complete; recurse
      have hle : fls.length +
          (decorationFills style g.device_width pos).length ≤ k := by omega
      have hdec := draw_decorations_fillFailOps_complete style e k
        (wr ++ glyphWrites g pos style.text_color style.background_color
          style.font.data) fls g.device_width pos hle
      simp only [hdec]
      obtain ⟨s2, j, hloop, hj, hlow, hhigh, hwr, hfl⟩ := ih gs2
        ⟨pos.x + (g.device_width : Int), pos.y⟩
        (wr ++ glyphWrites g pos style.text_color style.background_color
          style.font.data)
        (fls ++ decorationFills style g.device_width pos) hrest
        (by rw [List.length_append]; omega)
        (by rw [List.length_append]; omega)
      refine ⟨s2, j + 1, hloop, by simpa using hj, ?_, ?_, ?_, ?_⟩
      · rw [List.take_succ_cons]
        rw [show stringFills style (g :: gs2.take j) pos =
          decorationFills style g.device_width pos ++
            stringFills style (gs2.take j)
              ⟨pos.x + (g.device_width : Int), pos.y⟩ from rfl]
        rw [List.length_append] at hlow ⊢
        omega
      · rw [List.take_succ_cons]
        rw [show stringFills style (g :: gs2.take (j + 1)) pos =
          decorationFills style g.device_width pos ++
            stringFills style (gs2.take (j + 1))
              ⟨pos.x + (g.device_width : Int), pos.y⟩ from rfl]
        rw [List.length_append] at hhigh ⊢
        omega
      · rw [hwr, List.take_succ_cons]
        rw [show stringWrites style (g :: gs2.take (j + 1)) pos =
          glyphWrites g pos style.text_color style.background_color
              style.font.data ++
            stringWrites style (gs2.take (j + 1))
              ⟨pos.x + (g.device_width : Int), pos.y⟩ from rfl]
        rw [List.append_assoc]
      · rw [hfl, hsf, List.take_append_eq_append_take]
        rw [List.take_of_length_le
          (show (decorationFills style g.device_width pos).length ≤
            k - fls.length by omega)]
        rw [List.length_append, Nat.sub_sub, List.append_assoc]

/-- Claim C8: if the target fails during `draw_string` — whether on a
pixel write (failure on write number `n`) or on a decoration solid fill
(failure on fill number `n`), with `n` below the total the call would
make — the call aborts at that first failure and returns the target
error unchanged; the pixel writes already issued (the first `n` writes,
resp. all writes of the glyphs up to and including the one whose
decoration fill failed) are not undone and remain recorded on the
target, and no write after the failing operation is issued. -/
theorem draw_string_fail_fast {C E : Type} (style : BdfTextStyle C)
    (e : E) (n : Nat) (text : List Char) (gs : List BdfGlyph)
    (position : Point) (baseline : Baseline)
    (hres : text.mapM (fun ch => style.font.get_glyph ch) = some gs) :
    (n < (stringWrites style gs
        ⟨position.x,
          position.y - style.baseline_offset baseline⟩).length →
      ∃ s2 : RecState C,
        style.draw_string (failOps e n) text position baseline ⟨[], []⟩ =
          some (s2, .error e) ∧
        s2.written = (stringWrites style gs
          ⟨position.x,
            position.y - style.baseline_offset baseline⟩).take n) ∧
    (n < (stringFills style gs
        ⟨position.x,
          position.y - style.baseline_offset baseline⟩).length →
      ∃ (s2 : RecState C) (j : Nat),
        style.draw_string (fillFailOps e n) text position baseline
            ⟨[], []⟩ = some (s2, .error e) ∧
        j < gs.length ∧
        (stringFills style (gs.take j)
          ⟨position.x,
            position.y - style.baseline_offset baseline⟩).length ≤ n ∧
        n < (stringFills style (gs.take (j + 1))
          ⟨position.x,
            position.y - style.baseline_offset baseline⟩).length ∧
        s2.written = stringWrites style (gs.take (j + 1))
          ⟨position.x, position.y - style.baseline_offset baseline⟩ ∧
        s2.fills = (stringFills style gs
          ⟨position.x,
            position.y - style.baseline_offset baseline⟩).take n) := by
  constructor
  · intro hn
    unfold BdfTextStyle.draw_string
    obtain ⟨s2, hloop, hw⟩ := drawStringLoop_failOps style e n text gs
      ⟨position.x, position.y - style.baseline_offset baseline⟩ [] []
      hres (Nat.zero_le n) (by simpa using hn)
    refine ⟨s2, hloop, ?_⟩
    simpa using hw
  · intro hn
    unfold BdfTextStyle.draw_string
    obtain ⟨s2, j, hloop, hj, hlow, hhigh, hwr, hfl⟩ :=
      drawStringLoop_fillFailOps style e n text gs
        ⟨position.x, position.y - style.baseline_offset baseline⟩ [] []
        hres (Nat.zero_le n) (by simpa using hn)
    refine ⟨s2, j, hloop, hj, by simpa using hlow, by simpa using hhigh,
      by simpa using hwr, by simpa using hfl⟩

/-! ### Concrete witnesses -/

/-- A 2×2 glyph for the letter A: advance 3, bits 0–3 of the blob. -/
def gA : BdfGlyph := ⟨'A', ⟨⟨0, -2⟩, ⟨2, 2⟩⟩, 3, 0⟩

/-- A 2×2 glyph for the letter B: advance 4, bits 4–7 of the blob. -/
def gB : BdfGlyph := ⟨'B', ⟨⟨0, -2⟩, ⟨2, 2⟩⟩, 4, 4⟩

/-- A tiny two-glyph font over the one-byte blob `0b0011_1111`. -/
def fntW : BdfFont := ⟨0, [gA, gB], [63], 8, 8, 2⟩

/-- A style over `fntW`: foreground 1, background 2, no decorations. -/
def styW : BdfTextStyle Nat :=
  ⟨fntW, 1, some 2, DecorationColor.none, DecorationColor.none, 0⟩

/-- The four pixels glyph `gA` paints at the origin. -/
def wWrites : List (Point × Nat) :=
  [(⟨0, -2⟩, 1), (⟨1, -2⟩, 1), (⟨0, -1⟩, 1), (⟨1, -1⟩, 1)]

/-- Witness for `glyph_draw_emits` at `gA` on the one-byte blob. -/
theorem glyph_draw_emits_witness :
    (gA.start_index +
        gA.bounding_box.size.width * gA.bounding_box.size.height ≤
      8 * ([63] : List Nat).length) ∧
    glyphWrites gA ⟨10, 20⟩ (1 : Nat) (some 2) [63] =
      (List.range
          (gA.bounding_box.size.width * gA.bounding_box.size.height)).filterMap
        fun i =>
          if bitAt [63] (gA.start_index + i) then
            some (glyphPoint gA ⟨10, 20⟩ i, (1 : Nat))
          else
            match (some 2 : Option Nat) with
            | some c => some (glyphPoint gA ⟨10, 20⟩ i, c)
            | none => Option.none :=
  ⟨by decide, glyph_draw_emits gA ⟨10, 20⟩ 1 (some 2) [63] (by decide)⟩

/-- Witness for `get_glyph_correct` on `fntW` at the letter B. -/
theorem get_glyph_correct_witness :
    (fntW.glyphs.Pairwise fun a b => a.character.toNat < b.character.toNat) ∧
    fntW.replacement_character < fntW.glyphs.length ∧
    ((∀ g, g ∈ fntW.glyphs → g.character = 'B' →
        fntW.get_glyph 'B' = some g) ∧
      ((∀ g, g ∈ fntW.glyphs → g.character ≠ 'B') →
        fntW.get_glyph 'B' = fntW.glyphs[fntW.replacement_character]?) ∧
      (fntW.get_glyph 'B').isSome = true) := by
  have hs : fntW.glyphs.Pairwise
      fun a b => a.character.toNat < b.character.toNat := by decide
  exact ⟨hs, by decide, get_glyph_correct fntW hs (by decide) 'B'⟩

/-- Witness for `measure_draw_advance`: drawing `"A"` from the origin on
a recording target ends at `x = 3`, matching the measured width. -/
theorem measure_draw_advance_witness :
    ((['A'] : List Char).mapM (fun ch => styW.font.get_glyph ch) =
      some [gA]) ∧
    (styW.draw_string (recOps Nat Unit) ['A'] ⟨0, 0⟩ Baseline.alphabetic
        ⟨[], []⟩ = some (⟨wWrites, []⟩, .ok ⟨3, 0⟩)) ∧
    (∃ m, styW.measure_string ['A'] ⟨0, 0⟩ Baseline.alphabetic = some m ∧
      m.bounding_box.size.width = ([gA].map fun g => g.device_width).sum ∧
      (⟨3, 0⟩ : Point).x - (⟨0, 0⟩ : Point).x =
        ((([gA].map fun g => g.device_width).sum : Nat) : Int)) :=
  ⟨by rfl, by rfl,
    measure_draw_advance styW (recOps Nat Unit) ['A'] ⟨0, 0⟩ .alphabetic
      [gA] ⟨[], []⟩ ⟨wWrites, []⟩ ⟨3, 0⟩ (by rfl) (by rfl)⟩

/-- Witness for `baseline_offset_correct` on the ascent-8 / descent-2 /
zero-adjust style. -/
theorem baseline_offset_correct_witness :
    styW.line_height = 8 ∧ styW.baseline_offset .top = -7 ∧
      styW.baseline_offset .middle = -3 ∧
      styW.baseline_offset .alphabetic = 0 ∧
      styW.baseline_offset .bottom = 2 :=
  (baseline_offset_correct styW).2.2.2.2 rfl rfl rfl

/-- Witness for `measure_string_metrics` on `"A"` at the origin. -/
theorem measure_string_metrics_witness :
    ((['A'] : List Char).mapM (fun ch => styW.font.get_glyph ch) =
      some [gA]) ∧
    (∃ m, styW.measure_string ['A'] ⟨0, 0⟩ Baseline.alphabetic = some m ∧
      m.bounding_box.size.height =
        styW.line_height + styW.font.font_descent ∧
      m.next_position =
        ⟨(0 : Int) + ((([gA].map fun g => g.device_width).sum : Nat) : Int),
          (0 : Int)⟩) :=
  ⟨by rfl,
    measure_string_metrics styW ['A'] ⟨0, 0⟩ .alphabetic [gA] (by rfl)⟩

/-- A style over `fntW` with underline enabled (via the text color):
foreground 1, background 2, one decoration fill per character. -/
def styU : BdfTextStyle Nat :=
  ⟨fntW, 1, some 2, DecorationColor.textColor, DecorationColor.none, 0⟩

/-- Witness for `draw_string_fail_fast`: a target failing on pixel write
number 2 stops `draw_string` with the first two pixels recorded, and a
target failing on fill number 0 stops it during the decorations of the
first glyph with that error. -/
theorem draw_string_fail_fast_witness :
    ((['A'] : List Char).mapM (fun ch => styU.font.get_glyph ch) =
      some [gA]) ∧
    (2 < (stringWrites styU [gA]
      ⟨0, (0 : Int) - styU.baseline_offset Baseline.alphabetic⟩).length) ∧
    (0 < (stringFills styU [gA]
      ⟨0, (0 : Int) - styU.baseline_offset Baseline.alphabetic⟩).length) ∧
    (∃ s2 : RecState Nat,
      styU.draw_string (failOps (7 : Nat) 2) ['A'] ⟨0, 0⟩
          Baseline.alphabetic ⟨[], []⟩ = some (s2, .error 7) ∧
      s2.written = (stringWrites styU [gA]
        ⟨0, (0 : Int) - styU.baseline_offset Baseline.alphabetic⟩).take 2) ∧
    (∃ (s2 : RecState Nat) (j : Nat),
      styU.draw_string (fillFailOps (7 : Nat) 0) ['A'] ⟨0, 0⟩
          Baseline.alphabetic ⟨[], []⟩ = some (s2, .error 7) ∧
      j < ([gA] : List BdfGlyph).length ∧
      (stringFills styU ([gA].take j)
        ⟨0, (0 : Int) - styU.baseline_offset Baseline.alphabetic⟩).length
        ≤ 0 ∧
      0 < (stringFills styU ([gA].take (j + 1))
        ⟨0, (0 : Int) - styU.baseline_offset Baseline.alphabetic⟩).length ∧
      s2.written = stringWrites styU ([gA].take (j + 1))
        ⟨0, (0 : Int) - styU.baseline_offset Baseline.alphabetic⟩ ∧
      s2.fills = (stringFills styU [gA]
        ⟨0, (0 : Int) - styU.baseline_offset Baseline.alphabetic⟩).take 0) :=
  ⟨by rfl, by decide, by decide,
    (draw_string_fail_fast styU 7 2 ['A'] [gA] ⟨0, 0⟩ .alphabetic
      (by rfl)).1 (by decide),
    (draw_string_fail_fast styU 7 0 ['A'] [gA] ⟨0, 0⟩ .alphabetic
      (by rfl)).2 (by decide)⟩
